import Mathlib

/-!
Shallow embedding of the crypto-bot event aggregation core
(src/bot/internal/calendar/aggregator.go, src/bot/internal/model/event.go,
and the window-selection queries of the calendar package).

Modelling conventions:
* Go `time.Time` instants are embedded as `Int` Unix seconds (UTC).
  `t.UTC().Format("20060102")` — truncation to the UTC day — becomes
  floor division by 86400, which identifies two instants exactly when
  they fall on the same UTC day; `Before`/`After` become `<`/`>`.
* The Go cache `map[string]model.Event` is embedded as an association
  list `List (String × Event)`; insertion updates in place when the key
  is present and appends otherwise, and deletion is a filter.  Go map
  iteration order is unspecified, so theorems about cache contents are
  stated order-insensitively (membership / permutation) wherever the Go
  code iterates a map.
* Side effects that do not touch the event state (logging, file
  persistence via saveCache, network scanning) are outside the state
  being modelled; `Refresh` takes the combined scanner output as an
  explicit argument (the Collector merely concatenates per-scanner
  results in an unspecified order).
-/

namespace CryptoBot

/-- EventType — the closed set of event kinds (model/event.go). -/
inductive EventType where
  | launchpool
  | listing
  | unlock
  | airdrop
deriving DecidableEq, Repr

/-- Event — one crypto event (model/event.go `model.Event`).
`date` is Unix seconds UTC; the three sent flags mirror
`SentDigest`, `Sent24h`, `Sent2h`. -/
structure Event where
  id : String
  type : EventType
  source : String
  token : String
  title : String
  date : Int
  url : String
  details : String
  sentDigest : Bool
  sent24h : Bool
  sent2h : Bool
deriving DecidableEq, Repr

/-- The UTC day of an instant: embedding of
`t.UTC().Format("20060102")` used as a grouping key (floor division so
pre-1970 instants also truncate toward the earlier day). -/
def dateDay (t : Int) : Int := Int.fdiv t 86400

/-- sourcePriority — lower number = higher priority (aggregator.go). -/
def sourcePriority (source : String) : Int :=
  if source = "binance" then 1
  else if source = "bybit" then 2
  else if source = "okx" then 3
  else if source = "tokenunlocks" then 4
  else if source = "airdrops" then 5
  else 99

/-- The cross-source reconciliation key of `deduplicateCrossSource`:
`(token, date truncated to UTC day, type)`. -/
structure Key where
  token : String
  day : Int
  eType : EventType
deriving DecidableEq, Repr

/-- The key of an event, as computed inside `deduplicateCrossSource`. -/
def eventKey (e : Event) : Key :=
  { token := e.token, day := dateDay e.date, eType := e.type }

/-- One step of building the `order` list in `deduplicateCrossSource`:
a key is appended the first time it is seen. -/
def insertKey (order : List Key) (k : Key) : List Key :=
  if k ∈ order then order else order ++ [k]

/-- The `order` list of `deduplicateCrossSource`: keys in order of first
appearance, accumulated left to right over the candidate list. -/
def collectKeys (order : List Key) : List Event → List Key
  | [] => order
  | e :: es => collectKeys (insertKey order (eventKey e)) es

/-- `groups[k]` of `deduplicateCrossSource`: the events of the candidate
list whose key is `k`, in candidate-list order (the Go map value is
built by appending during the same left-to-right loop). -/
def groupOf (events : List Event) (k : Key) : List Event :=
  events.filter fun e => eventKey e = k

/-- Winner selection for a group of size > 1: start from the first
member and replace on strictly lower priority number (aggregator.go,
the `for _, e := range group[1:]` loop). -/
def pickWinner (g0 : Event) (rest : List Event) : Event :=
  rest.foldl
    (fun w e => if sourcePriority e.source < sourcePriority w.source then e else w)
    g0

/-- Flag merge over a group: each member with a sent flag set forces the
winner's flag to true (aggregator.go, the `for _, e := range group`
loop after winner selection). -/
def mergeFlags (w : Event) (group : List Event) : Event :=
  group.foldl
    (fun w e =>
      { w with
          sentDigest := w.sentDigest || e.sentDigest
          sent24h := w.sent24h || e.sent24h
          sent2h := w.sent2h || e.sent2h })
    w

/-- Processing of one reconciliation group: a singleton group passes
through unchanged; a larger group yields the priority winner with flags
merged.  Groups reached from `collectKeys` are never empty. -/
def reconcileGroup : List Event → Option Event
  | [] => none
  | [e] => some e
  | g0 :: g1 :: gs => some (mergeFlags (pickWinner g0 (g1 :: gs)) (g0 :: g1 :: gs))

/-- deduplicateCrossSource (aggregator.go): one output record per key in
first-seen key order. -/
def deduplicateCrossSource (events : List Event) : List Event :=
  (collectKeys [] events).filterMap fun k => reconcileGroup (groupOf events k)

/-- The keys of a candidate list in order of first appearance — the
specification-side description of the order kept by the `order` list of
`deduplicateCrossSource`: each key appears once, at the position of the
first event bearing it. -/
def firstKeyOccurrences : List Event → List Key
  | [] => []
  | e :: es =>
    eventKey e :: (firstKeyOccurrences es).filter fun k => ¬(k = eventKey e)

/-! ## The aggregator cache (Aggregator.cache, a Go map id → event) -/

/-- The in-memory cache state: an association list standing for the Go
map keyed by the per-source id. -/
abbrev Cache := List (String × Event)

/-- Map lookup `a.cache[id]`. -/
def cacheGet (c : Cache) (id : String) : Option Event :=
  (c.find? fun p => p.1 = id).map fun p => p.2

/-- Map write `a.cache[id] = e`: update in place when the key exists,
append otherwise (the position of a fresh key in the association list
is unobservable to the Go program, whose map has no order). -/
def cacheInsert (c : Cache) (id : String) (e : Event) : Cache :=
  if (c.find? fun p => p.1 = id).isSome then
    c.map fun p => if p.1 = id then (id, e) else p
  else
    c ++ [(id, e)]

/-- The first loop of `Refresh`: upsert each fresh (already reconciled)
event, copying the three sent flags from an existing entry with the
same id. -/
def mergeFresh (c : Cache) (fresh : List Event) : Cache :=
  fresh.foldl
    (fun c e =>
      let e' := match cacheGet c e.id with
        | some existing =>
            { e with
                sentDigest := existing.sentDigest
                sent24h := existing.sent24h
                sent2h := existing.sent2h }
        | none => e
      cacheInsert c e.id e')
    c

/-- The second loop of `Refresh`: for every winner of the fresh batch,
delete every cache entry with the same `(token, date-day, type)` but a
different id.  Deleting matching entries is order-independent, so the
Go map iteration is embedded as a filter. -/
def deleteLosers (c : Cache) (winners : List Event) : Cache :=
  winners.foldl
    (fun c winner =>
      c.filter fun p =>
        p.1 = winner.id ∨
          ¬(p.2.token = winner.token ∧ dateDay p.2.date = dateDay winner.date ∧
            p.2.type = winner.type))
    c

/-- The eviction loop of `Refresh`: delete entries whose date is before
`now - 48h` (`e.Date.Before(cutoff)` with `cutoff = now - 48*time.Hour`). -/
def evictOld (now : Int) (c : Cache) : Cache :=
  c.filter fun p => ¬(p.2.date < now - 172800)

/-- allEvents (aggregator.go): the cache values (order-insensitive in
Go, list order here). -/
def allEvents (c : Cache) : List Event :=
  c.map fun p => p.2

/-- The cache transformation performed by `Refresh` once the scanners
have produced the combined candidate list `scanned`:
reconcile, merge preserving flags, delete superseded cross-source
duplicates, evict stale entries.  (saveCache only persists and is not
part of the event state.) -/
def refreshCache (now : Int) (c : Cache) (scanned : List Event) : Cache :=
  let fresh := deduplicateCrossSource scanned
  evictOld now (deleteLosers (mergeFresh c fresh) fresh)

/-- The list returned by `Refresh`: `a.allEvents()` on the post-refresh
cache (no reconciliation pass on the way out). -/
def refreshResult (now : Int) (c : Cache) (scanned : List Event) : List Event :=
  allEvents (refreshCache now c scanned)

/-- Events (aggregator.go): the reconciled current cache contents,
`deduplicateCrossSource(a.allEvents())`. -/
def eventsRead (c : Cache) : List Event :=
  deduplicateCrossSource (allEvents c)

/-- MarkSentDigest: set the digest flag when the id is present,
otherwise leave the cache unchanged (no error is signalled; the Go
method returns nothing). -/
def markSentDigest (c : Cache) (id : String) : Cache :=
  match cacheGet c id with
  | some e => cacheInsert c id { e with sentDigest := true }
  | none => c

/-- MarkSent24h: as `markSentDigest` for the 24h flag. -/
def markSent24h (c : Cache) (id : String) : Cache :=
  match cacheGet c id with
  | some e => cacheInsert c id { e with sent24h := true }
  | none => c

/-- MarkSent2h: as `markSentDigest` for the 2h flag. -/
def markSent2h (c : Cache) (id : String) : Cache :=
  match cacheGet c id with
  | some e => cacheInsert c id { e with sent2h := true }
  | none => c

/-! ## Window selection (calendar package query functions) -/

/-- sortByDate: `sort.Slice` with `Date.Before` as the less function.
`sort.Slice` is an unstable sort, so the only specified behaviour is a
permutation of the input that is non-decreasing in `date`; insertion
sort by non-strict date order realises exactly that. -/
def sortByDate (events : List Event) : List Event :=
  List.insertionSort (fun a b => a.date ≤ b.date) events

/-- EventsTomorrow: events with `sent_24h` unset whose date lies
strictly between `now + 20h` and `now + 28h`, sorted by date. -/
def eventsTomorrow (now : Int) (events : List Event) : List Event :=
  sortByDate (events.filter fun e =>
    !e.sent24h && decide (now + 72000 < e.date) && decide (e.date < now + 100800))

/-! ## Concrete sample records, used in closed instance theorems -/

/-- A bybit-sourced listing of token FOO whose 24h alert was already
sent (a cached record from an earlier cycle). -/
def evBybitFlagged : Event :=
  { id := "bybit:FOO:19700101", type := .listing, source := "bybit",
    token := "FOO", title := "FOO listing", date := 100, url := "u",
    details := "", sentDigest := false, sent24h := true, sent2h := false }

/-- The same logical event (same token, same UTC day, same type) newly
reported by binance, with no flags set. -/
def evBinanceFresh : Event :=
  { id := "binance:FOO:19700101", type := .listing, source := "binance",
    token := "FOO", title := "FOO listing", date := 200, url := "u",
    details := "", sentDigest := false, sent24h := false, sent2h := false }

/-- A cache holding both records above under their per-source ids. -/
def cachePair : Cache :=
  [(evBybitFlagged.id, evBybitFlagged), (evBinanceFresh.id, evBinanceFresh)]

/-- An event dated exactly 20 hours after instant 0, 24h flag unset. -/
def evAtPlus20h : Event :=
  { id := "okx:AAA:19700101", type := .listing, source := "okx",
    token := "AAA", title := "", date := 72000, url := "", details := "",
    sentDigest := false, sent24h := false, sent2h := false }

/-- An event dated 47 hours before instant 0. -/
def evPast47h : Event :=
  { id := "okx:KEEP:19691230", type := .unlock, source := "okx",
    token := "KEEP", title := "", date := -169200, url := "", details := "",
    sentDigest := false, sent24h := false, sent2h := false }

/-- A plain cached event with no flags set. -/
def evCacheSample : Event :=
  { id := "okx:BBB:19700101", type := .launchpool, source := "okx",
    token := "BBB", title := "", date := 500, url := "", details := "",
    sentDigest := false, sent24h := false, sent2h := false }

/-- A second cached event, a different id and key. -/
def evCacheOther : Event :=
  { id := "airdrops:CCC:19700101", type := .airdrop, source := "airdrops",
    token := "CCC", title := "", date := 700, url := "", details := "",
    sentDigest := true, sent24h := false, sent2h := false }

/-- A two-entry cache for the flag-mark theorems. -/
def sampleCache : Cache :=
  [(evCacheSample.id, evCacheSample), (evCacheOther.id, evCacheOther)]

/-! ## Association-list lemmas for the cache embedding -/

theorem find?_update_self (c : Cache) (id : String) (e : Event) :
    ((c.map fun p => if p.1 = id then (id, e) else p).find? fun p => p.1 = id) =
      ((c.find? fun p => p.1 = id).map fun _ => (id, e)) := by
  induction c with
  | nil => rfl
  | cons hd tl ih =>
    by_cases h : hd.1 = id
    · simp [h]
    · simp [h, ih]

theorem find?_update_ne (c : Cache) (id id2 : String) (e : Event) (hne : id2 ≠ id) :
    ((c.map fun p => if p.1 = id then (id, e) else p).find? fun p => p.1 = id2) =
      (c.find? fun p => p.1 = id2) := by
  induction c with
  | nil => rfl
  | cons hd tl ih =>
    by_cases h : hd.1 = id
    · have h2 : ¬hd.1 = id2 := by
        rw [h]; exact fun hc => hne hc.symm
      rw [List.map_cons, if_pos h,
        List.find?_cons_of_neg _ (by simpa using fun hc => hne hc.symm),
        List.find?_cons_of_neg _ (by simpa using h2), ih]
    · rw [List.map_cons, if_neg h]
      by_cases h2 : hd.1 = id2
      · rw [List.find?_cons_of_pos _ (by simpa using h2),
          List.find?_cons_of_pos _ (by simpa using h2)]
      · rw [List.find?_cons_of_neg _ (by simpa using h2),
          List.find?_cons_of_neg _ (by simpa using h2), ih]

theorem cacheGet_cacheInsert (c : Cache) (id : String) (e : Event) :
    cacheGet (cacheInsert c id e) id = some e := by
  unfold cacheGet cacheInsert
  by_cases h : (c.find? fun p => p.1 = id).isSome
  · rw [if_pos h, find?_update_self]
    cases hf : c.find? fun p => p.1 = id
    · rw [hf] at h; simp at h
    · simp
  · rw [if_neg h, List.find?_append]
    cases hf : c.find? fun p => p.1 = id
    · simp
    · rw [hf] at h; simp at h

theorem cacheGet_cacheInsert_ne (c : Cache) (id id2 : String) (e : Event)
    (hne : id2 ≠ id) :
    cacheGet (cacheInsert c id e) id2 = cacheGet c id2 := by
  unfold cacheGet cacheInsert
  by_cases h : (c.find? fun p => p.1 = id).isSome
  · rw [if_pos h, find?_update_ne c id id2 e hne]
  · rw [if_neg h, List.find?_append]
    cases hf : c.find? fun p => p.1 = id2
    · simp [Ne.symm hne]
    · simp

end CryptoBot

namespace CryptoBot

/-! ## C7, C8, C10: eviction and flag-mark theorems -/

/-- C7: after any Refresh, every cache entry dated more than 48 hours
before the current time has been deleted, and the eviction step never
deletes an entry dated within the last 48 hours or in the future,
regardless of its source or flags. -/
theorem refresh_eviction_cutoff (now : Int) (c : Cache) (scanned : List Event) :
    (∀ p ∈ refreshCache now c scanned, ¬(p.2.date < now - 172800)) ∧
    (∀ (c2 : Cache) (p : String × Event), p ∈ c2 →
      ¬(p.2.date < now - 172800) → p ∈ evictOld now c2) := by
  constructor
  · intro p hp
    unfold refreshCache evictOld at hp
    have h := List.mem_filter.mp hp
    simpa using h.2
  · intro c2 p hp hdate
    unfold evictOld
    exact List.mem_filter.mpr ⟨hp, by simpa using hdate⟩

/-- C7 witness: a 47-hours-old entry survives the eviction step. -/
theorem refresh_eviction_cutoff_witness :
    (evPast47h.id, evPast47h) ∈ evictOld 0 [(evPast47h.id, evPast47h)] :=
  (refresh_eviction_cutoff 0 [] []).2 [(evPast47h.id, evPast47h)]
    (evPast47h.id, evPast47h) (by decide) (by decide)

/-- C8: marking a sent flag for an id absent from the cache leaves the
cache unchanged (no error is signalled — the functions are total);
for a present id the corresponding flag of that entry becomes true. -/
theorem mark_absent_noop (c : Cache) (id : String) :
    (cacheGet c id = none →
      markSentDigest c id = c ∧ markSent24h c id = c ∧ markSent2h c id = c) ∧
    (∀ e, cacheGet c id = some e →
      cacheGet (markSentDigest c id) id = some { e with sentDigest := true } ∧
      cacheGet (markSent24h c id) id = some { e with sent24h := true } ∧
      cacheGet (markSent2h c id) id = some { e with sent2h := true }) := by
  constructor
  · intro h
    refine ⟨?_, ?_, ?_⟩ <;> simp [markSentDigest, markSent24h, markSent2h, h]
  · intro e h
    refine ⟨?_, ?_, ?_⟩ <;>
      simp [markSentDigest, markSent24h, markSent2h, h, cacheGet_cacheInsert]

/-- C8 witness: marking an absent id on a concrete cache is a no-op,
and marking a present id sets its flag. -/
theorem mark_absent_noop_witness :
    (markSentDigest sampleCache "missing" = sampleCache ∧
      markSent24h sampleCache "missing" = sampleCache ∧
      markSent2h sampleCache "missing" = sampleCache) ∧
    cacheGet (markSent24h sampleCache evCacheSample.id) evCacheSample.id =
      some { evCacheSample with sent24h := true } :=
  ⟨(mark_absent_noop sampleCache "missing").1 (by decide),
    ((mark_absent_noop sampleCache evCacheSample.id).2 evCacheSample
      (by decide)).2.1⟩

/-- C10: frame property of the flag marks — marking a present id
changes only the corresponding flag of that entry (all other fields of
the entry are those of the record update that touches one flag), and
the entry under every other id is unchanged. -/
theorem mark_frame (c : Cache) (id : String) (e : Event)
    (h : cacheGet c id = some e) :
    (cacheGet (markSentDigest c id) id = some { e with sentDigest := true } ∧
      ∀ id2, id2 ≠ id → cacheGet (markSentDigest c id) id2 = cacheGet c id2) ∧
    (cacheGet (markSent24h c id) id = some { e with sent24h := true } ∧
      ∀ id2, id2 ≠ id → cacheGet (markSent24h c id) id2 = cacheGet c id2) ∧
    (cacheGet (markSent2h c id) id = some { e with sent2h := true } ∧
      ∀ id2, id2 ≠ id → cacheGet (markSent2h c id) id2 = cacheGet c id2) := by
  refine ⟨⟨?_, ?_⟩, ⟨?_, ?_⟩, ⟨?_, ?_⟩⟩
  · simp [markSentDigest, h, cacheGet_cacheInsert]
  · intro id2 hne
    simp [markSentDigest, h, cacheGet_cacheInsert_ne c id id2 _ hne]
  · simp [markSent24h, h, cacheGet_cacheInsert]
  · intro id2 hne
    simp [markSent24h, h, cacheGet_cacheInsert_ne c id id2 _ hne]
  · simp [markSent2h, h, cacheGet_cacheInsert]
  · intro id2 hne
    simp [markSent2h, h, cacheGet_cacheInsert_ne c id id2 _ hne]

/-- C10 witness: on a concrete two-entry cache, marking the 2h flag of
one entry rewrites only that flag and leaves the other entry intact. -/
theorem mark_frame_witness :
    cacheGet (markSent2h sampleCache evCacheSample.id) evCacheSample.id =
      some { evCacheSample with sent2h := true } ∧
    cacheGet (markSent2h sampleCache evCacheSample.id) evCacheOther.id =
      cacheGet sampleCache evCacheOther.id :=
  ⟨((mark_frame sampleCache evCacheSample.id evCacheSample (by decide)).2.2).1,
    ((mark_frame sampleCache evCacheSample.id evCacheSample (by decide)).2.2).2
      evCacheOther.id (by decide)⟩

end CryptoBot

namespace CryptoBot

/-! ## Winner selection and flag merge lemmas -/

theorem pickWinner_mem (g0 : Event) (rest : List Event) :
    pickWinner g0 rest ∈ g0 :: rest := by
  induction rest generalizing g0 with
  | nil => simp [pickWinner]
  | cons e es ih =>
    have hstep : pickWinner g0 (e :: es) =
        pickWinner
          (if sourcePriority e.source < sourcePriority g0.source then e else g0)
          es := rfl
    rw [hstep]
    by_cases h : sourcePriority e.source < sourcePriority g0.source
    · rw [if_pos h]
      rcases List.mem_cons.mp (ih e) with h1 | h1
      · rw [h1]; simp
      · simp [List.mem_cons, Or.inr (Or.inr h1)]
    · rw [if_neg h]
      rcases List.mem_cons.mp (ih g0) with h1 | h1
      · rw [h1]; simp
      · simp [List.mem_cons, Or.inr (Or.inr h1)]

theorem pickWinner_min (g0 : Event) (rest : List Event) :
    ∀ x ∈ g0 :: rest,
      sourcePriority (pickWinner g0 rest).source ≤ sourcePriority x.source := by
  induction rest generalizing g0 with
  | nil =>
    intro x hx
    have hx0 : x = g0 := by simpa using hx
    rw [hx0]
    exact le_refl _
  | cons e es ih =>
    intro x hx
    have hstep : pickWinner g0 (e :: es) =
        pickWinner
          (if sourcePriority e.source < sourcePriority g0.source then e else g0)
          es := rfl
    rw [hstep]
    by_cases h : sourcePriority e.source < sourcePriority g0.source
    · rw [if_pos h]
      rcases List.mem_cons.mp hx with h1 | h1
      · rw [h1]
        exact le_of_lt (lt_of_le_of_lt (ih e e (by simp)) h)
      · exact ih e x h1
    · rw [if_neg h]
      rcases List.mem_cons.mp hx with h1 | h1
      · rw [h1]
        exact ih g0 g0 (by simp)
      · rcases List.mem_cons.mp h1 with h2 | h2
        · rw [h2]
          exact le_trans (ih g0 g0 (by simp)) (le_of_not_lt h)
        · exact ih g0 x (List.mem_cons.mpr (Or.inr h2))

theorem pickWinner_first (g0 : Event) (rest : List Event) :
    ((g0 :: rest).find? fun x =>
        sourcePriority x.source ≤ sourcePriority (pickWinner g0 rest).source) =
      some (pickWinner g0 rest) := by
  induction rest generalizing g0 with
  | nil =>
    rw [List.find?_cons_of_pos _ (by simp [pickWinner])]
    rfl
  | cons e es ih =>
    have hstep : pickWinner g0 (e :: es) =
        pickWinner
          (if sourcePriority e.source < sourcePriority g0.source then e else g0)
          es := rfl
    by_cases h : sourcePriority e.source < sourcePriority g0.source
    · have hP : pickWinner g0 (e :: es) = pickWinner e es := by
        rw [hstep, if_pos h]
      have hminP : sourcePriority (pickWinner e es).source ≤
          sourcePriority e.source := pickWinner_min e es e (by simp)
      have hg0 : ¬(sourcePriority g0.source ≤
          sourcePriority (pickWinner g0 (e :: es)).source) := by
        rw [hP]
        exact not_le.mpr (lt_of_le_of_lt hminP h)
      rw [List.find?_cons_of_neg _ (by simpa using hg0), hP]
      exact ih e
    · have hP : pickWinner g0 (e :: es) = pickWinner g0 es := by
        rw [hstep, if_neg h]
      rw [hP]
      by_cases hg : sourcePriority g0.source ≤
          sourcePriority (pickWinner g0 es).source
      · have hh := ih g0
        rw [List.find?_cons_of_pos _ (by simpa using hg)] at hh ⊢
        exact hh
      · have hh := ih g0
        rw [List.find?_cons_of_neg _ (by simpa using hg)] at hh
        have he : ¬(sourcePriority e.source ≤
            sourcePriority (pickWinner g0 es).source) :=
          not_le.mpr (lt_of_lt_of_le (not_le.mp hg) (le_of_not_lt h))
        rw [List.find?_cons_of_neg _ (by simpa using hg),
          List.find?_cons_of_neg _ (by simpa using he)]
        exact hh

theorem mergeFlags_fields (w : Event) (g : List Event) :
    (mergeFlags w g).id = w.id ∧ (mergeFlags w g).type = w.type ∧
    (mergeFlags w g).source = w.source ∧ (mergeFlags w g).token = w.token ∧
    (mergeFlags w g).date = w.date := by
  induction g generalizing w with
  | nil => exact ⟨rfl, rfl, rfl, rfl, rfl⟩
  | cons e es ih =>
    have hstep : mergeFlags w (e :: es) = mergeFlags
        { w with
            sentDigest := w.sentDigest || e.sentDigest
            sent24h := w.sent24h || e.sent24h
            sent2h := w.sent2h || e.sent2h } es := rfl
    rw [hstep]
    simpa using ih
      { w with
          sentDigest := w.sentDigest || e.sentDigest
          sent24h := w.sent24h || e.sent24h
          sent2h := w.sent2h || e.sent2h }

theorem mergeFlags_flags (w : Event) (g : List Event) :
    (mergeFlags w g).sentDigest = (w.sentDigest || g.any fun e => e.sentDigest) ∧
    (mergeFlags w g).sent24h = (w.sent24h || g.any fun e => e.sent24h) ∧
    (mergeFlags w g).sent2h = (w.sent2h || g.any fun e => e.sent2h) := by
  induction g generalizing w with
  | nil => simp [mergeFlags]
  | cons e es ih =>
    have hstep : mergeFlags w (e :: es) = mergeFlags
        { w with
            sentDigest := w.sentDigest || e.sentDigest
            sent24h := w.sent24h || e.sent24h
            sent2h := w.sent2h || e.sent2h } es := rfl
    rw [hstep]
    obtain ⟨h1, h2, h3⟩ := ih
      { w with
          sentDigest := w.sentDigest || e.sentDigest
          sent24h := w.sent24h || e.sent24h
          sent2h := w.sent2h || e.sent2h }
    refine ⟨?_, ?_, ?_⟩ <;> simp [h1, h2, h3, Bool.or_assoc]

theorem eventKey_mergeFlags (w : Event) (g : List Event) :
    eventKey (mergeFlags w g) = eventKey w := by
  obtain ⟨-, ht, -, htok, hd⟩ := mergeFlags_fields w g
  simp [eventKey, ht, htok, hd]

theorem mem_groupOf (xs : List Event) (k : Key) (x : Event) :
    x ∈ groupOf xs k ↔ x ∈ xs ∧ eventKey x = k := by
  simp [groupOf]

theorem reconcileGroup_key (g : List Event) (k : Key)
    (hne : g ≠ []) (hk : ∀ x ∈ g, eventKey x = k) :
    ∃ w, reconcileGroup g = some w ∧ eventKey w = k := by
  match g with
  | [] => exact absurd rfl hne
  | [e] => exact ⟨e, rfl, hk e (by simp)⟩
  | g0 :: g1 :: gs =>
    refine ⟨_, rfl, ?_⟩
    rw [eventKey_mergeFlags]
    exact hk _ (pickWinner_mem g0 (g1 :: gs))

end CryptoBot

namespace CryptoBot

/-! ## Key collection lemmas -/

theorem collectKeys_append (xs : List Event) (order : List Key) :
    collectKeys order xs =
      order ++ (firstKeyOccurrences xs).filter fun k => ¬ k ∈ order := by
  induction xs generalizing order with
  | nil => simp [collectKeys, firstKeyOccurrences]
  | cons e es ih =>
    rw [collectKeys, ih, firstKeyOccurrences]
    unfold insertKey
    by_cases h : eventKey e ∈ order
    · rw [if_pos h, List.filter_cons_of_neg (by simp [h])]
      congr 1
      rw [List.filter_filter]
      refine (List.filter_congr ?_).symm
      intro k _
      by_cases h1 : k ∈ order
      · simp [h1]
      · have h2 : ¬(k = eventKey e) := fun hc => h1 (hc ▸ h)
        simp [h1, h2]
    · rw [if_neg h, List.filter_cons_of_pos (by simpa using h),
        List.append_assoc, List.singleton_append]
      congr 2
      rw [List.filter_filter]
      refine List.filter_congr ?_
      intro k _
      by_cases h1 : k ∈ order
      · have h2 : k ∈ order ++ [eventKey e] := List.mem_append.mpr (Or.inl h1)
        simp [h1, h2]
      · by_cases h2 : k = eventKey e
        · have h3 : k ∈ order ++ [eventKey e] := by simp [h2]
          simp [h2, h3]
        · have h3 : ¬ k ∈ order ++ [eventKey e] := by
            simp [List.mem_append, h1, h2]
          simp [h1, h2, h3]

theorem collectKeys_nil (xs : List Event) :
    collectKeys [] xs = firstKeyOccurrences xs := by
  rw [collectKeys_append]
  simp

theorem fKO_nodup (xs : List Event) : (firstKeyOccurrences xs).Nodup := by
  induction xs with
  | nil => simp [firstKeyOccurrences]
  | cons e es ih =>
    rw [firstKeyOccurrences]
    refine List.nodup_cons.mpr ⟨?_, List.Nodup.filter _ ih⟩
    intro hmem
    simpa using List.of_mem_filter hmem

theorem mem_fKO (xs : List Event) (k : Key) :
    k ∈ firstKeyOccurrences xs ↔ ∃ e ∈ xs, eventKey e = k := by
  induction xs with
  | nil => simp [firstKeyOccurrences]
  | cons e es ih =>
    rw [firstKeyOccurrences]
    by_cases h : k = eventKey e
    · rw [h]
      constructor
      · intro _; exact ⟨e, by simp, rfl⟩
      · intro _; simp
    · constructor
      · intro hmem
        rcases List.mem_cons.mp hmem with h1 | h1
        · exact absurd h1 h
        · obtain ⟨e2, he2, hk2⟩ := ih.mp (List.mem_of_mem_filter h1)
          exact ⟨e2, List.mem_cons.mpr (Or.inr he2), hk2⟩
      · intro ⟨e2, he2, hk2⟩
        rcases List.mem_cons.mp he2 with h1 | h1
        · exact absurd (by rw [← hk2, h1]) h
        · refine List.mem_cons.mpr (Or.inr (List.mem_filter.mpr ?_))
          exact ⟨ih.mpr ⟨e2, h1, hk2⟩, by simpa using fun hc => h hc⟩

end CryptoBot

namespace CryptoBot

/-! ## Output shape of the reconciler -/

theorem filterMap_key_section (l : List Key) (f : Key → Option Event)
    (h : ∀ k ∈ l, ∃ w, f k = some w ∧ eventKey w = k) :
    (l.filterMap f).map eventKey = l := by
  induction l with
  | nil => rfl
  | cons k ks ih =>
    obtain ⟨w, hw, hkey⟩ := h k (by simp)
    simp [List.filterMap_cons, hw, hkey,
      ih fun k2 hk2 => h k2 (by simp [hk2])]

theorem dedup_map_key (xs : List Event) :
    (deduplicateCrossSource xs).map eventKey = collectKeys [] xs := by
  unfold deduplicateCrossSource
  refine filterMap_key_section _ _ ?_
  intro k hk
  rw [collectKeys_nil] at hk
  obtain ⟨e, he, hke⟩ := (mem_fKO xs k).mp hk
  have hne : groupOf xs k ≠ [] := by
    intro hnil
    have hmem : e ∈ groupOf xs k := (mem_groupOf xs k e).mpr ⟨he, hke⟩
    rw [hnil] at hmem
    simp at hmem
  exact reconcileGroup_key _ k hne fun x hx => ((mem_groupOf xs k x).mp hx).2

theorem fKO_of_nodup (xs : List Event) (h : (xs.map eventKey).Nodup) :
    firstKeyOccurrences xs = xs.map eventKey := by
  induction xs with
  | nil => rfl
  | cons e es ih =>
    rw [List.map_cons] at h ⊢
    have h1 := (List.nodup_cons.mp h).1
    have h2 := (List.nodup_cons.mp h).2
    rw [firstKeyOccurrences, ih h2, List.filter_eq_self.mpr ?_]
    intro k hk
    have hne : ¬(k = eventKey e) := fun hc => h1 (hc ▸ hk)
    simpa using hne

theorem groupOf_single (xs : List Event) (h : (xs.map eventKey).Nodup) :
    ∀ y ∈ xs, groupOf xs (eventKey y) = [y] := by
  induction xs with
  | nil => intro y hy; simp at hy
  | cons e es ih =>
    intro y hy
    rw [List.map_cons] at h
    have h1 := (List.nodup_cons.mp h).1
    have h2 := (List.nodup_cons.mp h).2
    rcases List.mem_cons.mp hy with rfl | hy2
    · unfold groupOf
      rw [List.filter_cons_of_pos (by simp)]
      have hnil : es.filter (fun x => eventKey x = eventKey y) = [] := by
        rw [List.filter_eq_nil_iff]
        intro x hx
        simp only [decide_eq_true_eq]
        intro hc
        exact h1 (hc ▸ List.mem_map_of_mem eventKey hx)
      rw [hnil]
    · unfold groupOf
      have hne : ¬(eventKey e = eventKey y) := by
        intro hc
        exact h1 (hc ▸ List.mem_map_of_mem eventKey hy2)
      rw [List.filter_cons_of_neg (by simpa using hne)]
      exact ih h2 y hy2

theorem filterMap_of_map (l : List Event) (f : Key → Option Event)
    (h : ∀ y ∈ l, f (eventKey y) = some y) :
    (l.map eventKey).filterMap f = l := by
  induction l with
  | nil => rfl
  | cons e es ih =>
    rw [List.map_cons]
    simp [List.filterMap_cons, h e (by simp),
      ih fun y hy => h y (by simp [hy])]

theorem dedup_of_nodup_keys (xs : List Event) (h : (xs.map eventKey).Nodup) :
    deduplicateCrossSource xs = xs := by
  unfold deduplicateCrossSource
  rw [collectKeys_nil, fKO_of_nodup xs h]
  refine filterMap_of_map xs _ ?_
  intro y hy
  rw [groupOf_single xs h y hy]
  rfl

theorem or_any_iff (b : Bool) (l : List Event) (f : Event → Bool) (W : Event)
    (hW : W ∈ l) (hb : b = (f W || l.any f)) :
    b = true ↔ ∃ e ∈ l, f e = true := by
  rw [hb]
  constructor
  · intro hor
    have hor2 : f W = true ∨ l.any f = true := by simpa using hor
    rcases hor2 with h | h
    · exact ⟨W, hW, h⟩
    · simpa using List.any_eq_true.mp h
  · intro ⟨e, he, hf⟩
    have hany : l.any f = true := List.any_eq_true.mpr ⟨e, he, hf⟩
    simp [hany]

end CryptoBot

namespace CryptoBot

/-! ## Claim theorems on the reconciler -/

/-- C5: for every candidate list, the reconciler output contains
exactly one record per distinct (token, date-day, type) key of the
input — keys of the output are exactly the keys present in the input,
without duplicates, in order of first appearance. -/
theorem dedup_one_winner_per_key (xs : List Event) :
    (deduplicateCrossSource xs).map eventKey = firstKeyOccurrences xs ∧
    (firstKeyOccurrences xs).Nodup ∧
    ∀ k, k ∈ firstKeyOccurrences xs ↔ ∃ e ∈ xs, eventKey e = k :=
  ⟨by rw [dedup_map_key, collectKeys_nil], fKO_nodup xs, fun k => mem_fKO xs k⟩

/-- C9: cross-source deduplication is idempotent — a second pass over
an already reconciled list changes nothing. -/
theorem dedup_idempotent (xs : List Event) :
    deduplicateCrossSource (deduplicateCrossSource xs) =
      deduplicateCrossSource xs := by
  apply dedup_of_nodup_keys
  rw [dedup_map_key, collectKeys_nil]
  exact fKO_nodup xs

/-- C3: for a reconciliation group of size > 1, each milestone flag of
the output record is true exactly when some member of the group has
that flag true. -/
theorem dedup_flag_union (xs : List Event) (k : Key) (w : Event)
    (hw : reconcileGroup (groupOf xs k) = some w)
    (hlen : 1 < (groupOf xs k).length) :
    ((w.sentDigest = true) ↔ ∃ e ∈ groupOf xs k, e.sentDigest = true) ∧
    ((w.sent24h = true) ↔ ∃ e ∈ groupOf xs k, e.sent24h = true) ∧
    ((w.sent2h = true) ↔ ∃ e ∈ groupOf xs k, e.sent2h = true) := by
  rcases hg : groupOf xs k with _ | ⟨g0, rest⟩
  · rw [hg] at hlen; simp at hlen
  rcases rest with _ | ⟨g1, gs⟩
  · rw [hg] at hlen; simp at hlen
  rw [hg] at hw
  have hw2 : mergeFlags (pickWinner g0 (g1 :: gs)) (g0 :: g1 :: gs) = w :=
    Option.some.inj hw
  obtain ⟨h1, h2, h3⟩ := mergeFlags_flags (pickWinner g0 (g1 :: gs)) (g0 :: g1 :: gs)
  rw [hw2] at h1 h2 h3
  have hWmem := pickWinner_mem g0 (g1 :: gs)
  exact ⟨or_any_iff _ _ _ _ hWmem h1, or_any_iff _ _ _ _ hWmem h2,
    or_any_iff _ _ _ _ hWmem h3⟩

/-- C4: for a reconciliation group of size > 1, the output record
carries the source of a member with the lowest numeric source priority,
and it is the first-seen member attaining that priority (with the
group's flags merged onto it). -/
theorem dedup_priority_winner (xs : List Event) (k : Key) (w : Event)
    (hw : reconcileGroup (groupOf xs k) = some w)
    (hlen : 1 < (groupOf xs k).length) :
    (∀ e ∈ groupOf xs k, sourcePriority w.source ≤ sourcePriority e.source) ∧
    ∃ v, ((groupOf xs k).find? fun e =>
        sourcePriority e.source ≤ sourcePriority w.source) = some v ∧
      v.source = w.source ∧ w = mergeFlags v (groupOf xs k) := by
  rcases hg : groupOf xs k with _ | ⟨g0, rest⟩
  · rw [hg] at hlen; simp at hlen
  rcases rest with _ | ⟨g1, gs⟩
  · rw [hg] at hlen; simp at hlen
  rw [hg] at hw
  have hw2 : mergeFlags (pickWinner g0 (g1 :: gs)) (g0 :: g1 :: gs) = w :=
    Option.some.inj hw
  have hsrc : w.source = (pickWinner g0 (g1 :: gs)).source := by
    rw [← hw2]
    exact (mergeFlags_fields (pickWinner g0 (g1 :: gs)) (g0 :: g1 :: gs)).2.2.1
  constructor
  · intro e he
    rw [hsrc]
    exact pickWinner_min g0 (g1 :: gs) e he
  · refine ⟨pickWinner g0 (g1 :: gs), ?_, hsrc.symm, hw2.symm⟩
    rw [hsrc]
    exact pickWinner_first g0 (g1 :: gs)

/-- C3 witness: a concrete group of two sources where only the loser
had sent_24h set — the reconciled record's flag is the OR. -/
theorem dedup_flag_union_witness :
    (({ evBinanceFresh with sent24h := true } : Event).sent24h = true) ↔
      ∃ e ∈ groupOf [evBybitFlagged, evBinanceFresh] (eventKey evBybitFlagged),
        e.sent24h = true :=
  (dedup_flag_union [evBybitFlagged, evBinanceFresh] (eventKey evBybitFlagged)
    { evBinanceFresh with sent24h := true } (by decide) (by decide)).2.1

/-- C4 witness: with bybit listed before binance in the input, the
reconciled record still carries binance's (lower) priority. -/
theorem dedup_priority_winner_witness :
    sourcePriority ({ evBinanceFresh with sent24h := true } : Event).source ≤
      sourcePriority evBybitFlagged.source :=
  (dedup_priority_winner [evBybitFlagged, evBinanceFresh] (eventKey evBybitFlagged)
    { evBinanceFresh with sent24h := true } (by decide) (by decide)).1
    evBybitFlagged (by decide)

end CryptoBot

namespace CryptoBot

/-! ## Refresh path and window selection claim theorems -/

/-- C1: evaluation of the refresh path at the input that violates flag
monotonicity.  The cache holds the bybit record of a logical event with
sent_24h already true; a refresh in which binance (higher priority)
newly reports the same (token, day, type) ends with a cache whose only
record for that event has sent_24h = false — the eager deletion of the
superseded bybit entry drops its flag instead of merging it into the
new winner. -/
theorem flag_lost_on_supersession :
    evBybitFlagged.sent24h = true ∧
    eventKey evBybitFlagged = eventKey evBinanceFresh ∧
    refreshCache 0 [(evBybitFlagged.id, evBybitFlagged)] [evBinanceFresh] =
      [(evBinanceFresh.id, evBinanceFresh)] ∧
    ∀ p ∈ refreshCache 0 [(evBybitFlagged.id, evBybitFlagged)] [evBinanceFresh],
      p.2.sent24h = false := by
  decide

/-- C2 counterexample: with a cache holding two records of the same
logical event under different per-source ids and a scan that produced
nothing, Refresh returns both raw records while the reconciled read
path (Events) merges them into one — the returned list is not the
Reconciler-processed cache contents. -/
theorem refresh_not_reconciled_cex :
    refreshResult 0 cachePair [] ≠
      eventsRead (refreshCache 0 cachePair []) := by
  decide

/-- C2 (amended): Refresh returns the raw post-refresh cache contents;
this equals the Reconciler-processed contents (the value Events() reads
on that cache) exactly when the post-refresh cache holds at most one
record per (token, date-day, type) key. -/
theorem refresh_returns_raw_cache (now : Int) (c : Cache) (scanned : List Event)
    (h : ((allEvents (refreshCache now c scanned)).map eventKey).Nodup) :
    refreshResult now c scanned = allEvents (refreshCache now c scanned) ∧
    refreshResult now c scanned = eventsRead (refreshCache now c scanned) := by
  constructor
  · rfl
  · show allEvents (refreshCache now c scanned) =
      deduplicateCrossSource (allEvents (refreshCache now c scanned))
    exact (dedup_of_nodup_keys _ h).symm

/-- C2 witness: on a duplicate-free concrete cache the returned list
and the reconciled read coincide. -/
theorem refresh_returns_raw_cache_witness :
    refreshResult 0 sampleCache [] = eventsRead (refreshCache 0 sampleCache []) :=
  (refresh_returns_raw_cache 0 sampleCache [] (by decide)).2

/-- C6 counterexample: an event dated exactly now+20h with the 24h flag
unset is not selected — the code's window excludes both boundaries,
while the claim's closed interval includes them. -/
theorem eventsTomorrow_boundary_cex :
    evAtPlus20h.sent24h = false ∧ evAtPlus20h.date = 0 + 72000 ∧
    eventsTomorrow 0 [evAtPlus20h] = [] := by
  decide

instance : IsTotal Event fun a b => a.date ≤ b.date :=
  ⟨fun a b => Int.le_total a.date b.date⟩

instance : IsTrans Event fun a b => a.date ≤ b.date :=
  ⟨fun _ _ _ h1 h2 => le_trans h1 h2⟩

/-- C6 (amended): the 24h-alert query returns exactly the events with
sent_24h unset whose date lies strictly inside (now+20h, now+28h) —
both boundaries excluded — sorted by ascending date. -/
theorem eventsTomorrow_window (now : Int) (events : List Event) :
    (eventsTomorrow now events).Perm
      (events.filter fun e =>
        e.sent24h = false ∧ now + 72000 < e.date ∧ e.date < now + 100800) ∧
    (eventsTomorrow now events).Sorted fun a b => a.date ≤ b.date := by
  constructor
  · unfold eventsTomorrow sortByDate
    have hfil : (events.filter fun e =>
        !e.sent24h && decide (now + 72000 < e.date) &&
          decide (e.date < now + 100800)) =
        events.filter fun e =>
          decide (e.sent24h = false ∧ now + 72000 < e.date ∧
            e.date < now + 100800) := by
      refine List.filter_congr ?_
      intro e _
      cases h : e.sent24h <;> simp [h]
    rw [hfil]
    have hp := List.perm_insertionSort (fun a b : Event => a.date ≤ b.date)
      (events.filter fun e =>
        decide (e.sent24h = false ∧ now + 72000 < e.date ∧
          e.date < now + 100800))
    exact hp
  · exact List.sorted_insertionSort _ _

end CryptoBot
